import Mathlib

/-!
# SentimentFlow — verified model of the Strategy Evaluation & Execution Engine

A shallow embedding of the core of the SentimentFlow backend
(`src/strategy/execution_engine.ts`, `src/api/routes/execute.ts`,
`src/utils` conversion helpers, and the on-chain Move module
`sentiment_flow::strategy`).  Numbers are modelled as rationals, JS
`Math.round` as `⌊x + 1/2⌋` (it rounds half toward positive infinity),
timestamps as integer milliseconds, and the database as explicit lists of
records threaded through the operations.
-/

namespace SentimentFlow

/-- JS `Math.round`: rounds to the nearest integer, halves toward +∞. -/
def jsRound (x : ℚ) : ℤ := ⌊x + 1/2⌋

/-! ## Conversion helpers (utils module)

`probToBps`, `sentimentToBps`, `bpsToProb`, `bpsToSentiment` embed the
exported conversion functions of the backend utils file. -/

/-- `probToBps`: probability in [0,1] to basis points, `Math.round(p * 10000)`. -/
def probToBps (probability : ℚ) : ℤ := jsRound (probability * 10000)

/-- `sentimentToBps`: sentiment in [-1,1] to basis points,
`Math.round((sentiment + 1) * 5000)`. -/
def sentimentToBps (sentiment : ℚ) : ℤ := jsRound ((sentiment + 1) * 5000)

/-- `bpsToProb`: basis points back to a probability, `bps / 10000`. -/
def bpsToProb (bps : ℤ) : ℚ := (bps : ℚ) / 10000

/-- `bpsToSentiment`: basis points back to a sentiment, `(bps / 5000) - 1`. -/
def bpsToSentiment (bps : ℤ) : ℚ := (bps : ℚ) / 5000 - 1

/-! ## Data model (Prisma schema) -/

/-- `StrategyStatus` enum of the schema.  The discovery query additionally
mentions a `PENDING` status; we include it so the embedded query filter can
be written exactly as in the source, although the SQL enum itself only has
the first three values, so no stored row ever carries `PENDING`. -/
inductive StrategyStatus where
  | ACTIVE
  | EXECUTED
  | EXPIRED
  | PENDING
  deriving Repr, DecidableEq

/-- A `Strategy` row. -/
structure Strategy where
  id : Nat
  ownerAddress : String
  marketId : String
  sentimentTag : String
  minPredictionProb : ℚ
  minSentimentScore : ℚ
  notionalAmount : ℚ
  maxSlippageBps : ℤ
  expiryTimestamp : ℤ
  status : StrategyStatus
  lastExecutedAt : Option ℤ
  lastTxHash : Option String
  deriving Repr, DecidableEq

/-- A `MarketSnapshot` row: immutable observation of a market probability. -/
structure MarketSnapshot where
  marketId : String
  timestamp : ℤ
  probability : ℚ
  deriving Repr, DecidableEq

/-- A `SentimentSnapshot` row: immutable observation of a sentiment score. -/
structure SentimentSnapshot where
  tag : String
  timestamp : ℤ
  score : ℚ
  deriving Repr, DecidableEq

/-- An `ExecutionLog` row. -/
structure ExecutionLog where
  strategyId : Nat
  success : Bool
  txHash : Option String
  reason : Option String
  deriving Repr, DecidableEq

/-- The relational store.  `nextId` models Prisma's unique-id generation for
newly created strategies. -/
structure Db where
  strategies : List Strategy
  markets : List MarketSnapshot
  sentiments : List SentimentSnapshot
  logs : List ExecutionLog
  nextId : Nat
  deriving Repr

/-! ## Queries -/

/-- `findFirst` with `orderBy: timestamp desc` over market snapshots for one
market: the matching snapshot with the greatest timestamp (first such row on
ties). -/
def latestMarketSnapshot (db : Db) (marketId : String) : Option MarketSnapshot :=
  (db.markets.filter (fun m => m.marketId = marketId)).foldl
    (fun acc m => match acc with
      | none => some m
      | some a => if a.timestamp < m.timestamp then some m else acc) none

/-- `findFirst` with `orderBy: timestamp desc` over sentiment snapshots for
one tag. -/
def latestSentimentSnapshot (db : Db) (tag : String) : Option SentimentSnapshot :=
  (db.sentiments.filter (fun s => s.tag = tag)).foldl
    (fun acc s => match acc with
      | none => some s
      | some a => if a.timestamp < s.timestamp then some s else acc) none

/-- `findUnique` on strategies by id. -/
def getStrategy (db : Db) (sid : Nat) : Option Strategy :=
  db.strategies.find? (fun s => s.id = sid)

/-- The execution-log rows belonging to one strategy. -/
def logsFor (db : Db) (sid : Nat) : List ExecutionLog :=
  db.logs.filter (fun l => l.strategyId = sid)

/-! ## Firing eligibility -/

/-- The Engine's threshold check, lines 160–164 of the execution engine:
`probability >= strategy.minPredictionProb && sentiment >= strategy.minSentimentScore`. -/
def engineEligible (minPredictionProb minSentimentScore probability sentiment : ℚ) : Bool :=
  decide (minPredictionProb ≤ probability) && decide (minSentimentScore ≤ sentiment)

/-- The Backtest Simulator's threshold check, lines 338–340 of the execution
engine (the `wouldExecute` expression). -/
def simulatorEligible (minPredictionProb minSentimentScore probability sentiment : ℚ) : Bool :=
  decide (minPredictionProb ≤ probability) && decide (minSentimentScore ≤ sentiment)

/-- Result record of `shouldExecuteStrategy`. -/
structure EvalResult where
  shouldExecute : Bool
  probability : ℚ
  sentiment : ℚ
  reason : String
  deriving Repr, DecidableEq

/-- `shouldExecuteStrategy`: fetch the latest market and sentiment snapshots;
absent data means not executable; otherwise compare both against the
strategy's thresholds. -/
def shouldExecuteStrategy (db : Db) (strategy : Strategy) : EvalResult :=
  match latestMarketSnapshot db strategy.marketId,
        latestSentimentSnapshot db strategy.sentimentTag with
  | some m, some s =>
      { shouldExecute := engineEligible strategy.minPredictionProb
          strategy.minSentimentScore m.probability s.score
        probability := m.probability
        sentiment := s.score
        reason := if engineEligible strategy.minPredictionProb
            strategy.minSentimentScore m.probability s.score
          then "All thresholds met" else "Thresholds not met" }
  | _, _ =>
      { shouldExecute := false, probability := 0, sentiment := 0, reason := "Missing data" }

/-! ## Settlement boundary -/

/-- Result of a Settlement Client call.

Modelled from the spec: the underlying Aptos client
(`src/onchain/aptos_client.ts`) is not part of the analysed sources; the
spec's interface is `execute(...) -> {txRef} | failure(reason)`. -/
inductive SettlementResult where
  | ok (txHash : String)
  | fail (reason : String)
  deriving Repr, DecidableEq

/-- Arguments of a Settlement Client `execute` call. -/
structure ExecuteCall where
  strategyId : Nat
  marketId : String
  probBps : ℤ
  sentimentBps : ℤ
  deriving Repr, DecidableEq

/-- Arguments of a Settlement Client `register` call. -/
structure RegisterCall where
  strategyId : Nat
  marketId : String
  sentimentTag : String
  minPredictionProbBps : ℤ
  minSentimentScoreBps : ℤ
  notionalAmount : ℤ
  maxSlippageBps : ℤ
  expiryTimestampSec : ℤ
  deriving Repr, DecidableEq

/-- The `execute` call the Engine builds (execution engine lines 189–194):
`probBps = Math.round(probability * 10000)`,
`sentimentBps = Math.round((sentiment + 1) * 5000)`.  The manual execute
route builds the identical call from the latest snapshots. -/
def engineExecuteCall (strategy : Strategy) (probability sentiment : ℚ) : ExecuteCall :=
  { strategyId := strategy.id
    marketId := strategy.marketId
    probBps := jsRound (probability * 10000)
    sentimentBps := jsRound ((sentiment + 1) * 5000) }

/-- The `register` call Discovery builds (execution engine lines 102–112):
both thresholds are converted with `Math.round(x * 10000)`, the notional with
`Math.round`, and the expiry with `Math.floor(ms / 1000)`. -/
def discoveryRegisterCall (s : Strategy) : RegisterCall :=
  { strategyId := s.id
    marketId := s.marketId
    sentimentTag := s.sentimentTag
    minPredictionProbBps := jsRound (s.minPredictionProb * 10000)
    minSentimentScoreBps := jsRound (s.minSentimentScore * 10000)
    notionalAmount := jsRound s.notionalAmount
    maxSlippageBps := s.maxSlippageBps
    expiryTimestampSec := Int.fdiv s.expiryTimestamp 1000 }

/-! ## Database mutators -/

/-- The success-path strategy update: status EXECUTED, execution timestamp,
settlement reference. -/
def setStrategyExecuted (db : Db) (sid : Nat) (now : ℤ) (tx : String) : Db :=
  { db with strategies := db.strategies.map (fun s =>
      if s.id = sid then
        { s with status := .EXECUTED, lastExecutedAt := some now, lastTxHash := some tx }
      else s) }

/-- The expiry update: status EXPIRED, nothing else touched. -/
def setStrategyExpired (db : Db) (sid : Nat) : Db :=
  { db with strategies := db.strategies.map (fun s =>
      if s.id = sid then { s with status := .EXPIRED } else s) }

/-- `executionLog.create`. -/
def appendLog (db : Db) (l : ExecutionLog) : Db :=
  { db with logs := db.logs ++ [l] }

/-! ## Evaluation and execution -/

/-- `executeStrategy`: evaluate eligibility; when eligible, call the
Settlement Client; on success mark the strategy EXECUTED and log a success
entry; on failure leave the strategy untouched and log a failure entry. -/
def executeStrategy (settle : ExecuteCall → SettlementResult) (now : ℤ)
    (db : Db) (strategy : Strategy) : Db :=
  if (shouldExecuteStrategy db strategy).shouldExecute then
    match settle (engineExecuteCall strategy (shouldExecuteStrategy db strategy).probability
        (shouldExecuteStrategy db strategy).sentiment) with
    | .ok tx =>
        appendLog (setStrategyExecuted db strategy.id now tx)
          { strategyId := strategy.id, success := true, txHash := some tx, reason := none }
    | .fail reason =>
        appendLog db
          { strategyId := strategy.id, success := false, txHash := none, reason := some reason }
  else db

/-- One iteration of the Engine's per-strategy loop: expire when
`now > expiryTimestamp`, otherwise evaluate-and-maybe-execute. -/
def processStrategy (settle : ExecuteCall → SettlementResult) (now : ℤ)
    (db : Db) (strategy : Strategy) : Db :=
  if strategy.expiryTimestamp < now then setStrategyExpired db strategy.id
  else executeStrategy settle now db strategy

/-! ## Discovery Matcher -/

/-- 24 hours in milliseconds. -/
def dayMs : ℤ := 24 * 60 * 60 * 1000

/-- 7 days in milliseconds. -/
def weekMs : ℤ := 7 * dayMs

/-- `String.startsWith`, expressed over the underlying character lists so
that it evaluates inside the kernel. -/
def strStartsWith (s p : String) : Bool :=
  p.data.isPrefixOf s.data

/-- The rule table mapping a market identifier to its required sentiment tag:
exact overrides first, then category rules on the identifier's leading
namespace, else no match. -/
def getSentimentTagForMarket (marketId : String) : Option String :=
  if marketId = "TRUMP_CABINET" then some ("TRUMP")
  else if marketId = "TRUMP_NOMINEE" then some ("TRUMP")
  else if marketId = "ELECTION_2028" then some ("ELECTION")
  else if marketId = "FED_RATES" then some ("FED")
  else if marketId = "ECON_RECESSION" then some ("STOCK_MARKET")
  else if marketId = "FINANCE_NVIDIA" then some ("STOCK_MARKET")
  else if strStartsWith marketId ("CRYPTO_") then some ("CRYPTO")
  else if strStartsWith marketId ("SPORTS_") then some ("SPORTS")
  else if strStartsWith marketId ("POLITICS_") then some ("POLITICS")
  else none

/-- Discovery's `recentSentiments` query, reduced to the property actually
used of it: some snapshot for the tag in the last 24 hours with score above
0.1 exists (the query's ordering and per-tag dedup only choose among
equal-tag rows, and only the tag field of the chosen row is ever read). -/
def hasRecentSentiment (db : Db) (now : ℤ) (tag : String) : Bool :=
  db.sentiments.any (fun s =>
    decide (now - dayMs ≤ s.timestamp) && decide ((1:ℚ)/10 < s.score) &&
      decide (s.tag = tag))

/-- Discovery's duplicate check (`findFirst` on marketId, sentimentTag,
status in [ACTIVE, PENDING]). -/
def strategyExistsFor (db : Db) (marketId tag : String) : Bool :=
  db.strategies.any (fun s =>
    decide (s.marketId = marketId) && decide (s.sentimentTag = tag) &&
      (decide (s.status = .ACTIVE) || decide (s.status = .PENDING)))

/-- The distinct market identifiers having a snapshot in the last 24 hours:
the iteration domain of Discovery's loop (its order does not affect what is
created). -/
def recentMarketIds (db : Db) (now : ℤ) : List String :=
  ((db.markets.filter (fun m => decide (now - dayMs ≤ m.timestamp))).map
    (fun m => m.marketId)).dedup

/-- The fixed-parameter strategy Discovery creates:
`minPredictionProb = 0.05`, `minSentimentScore = 0.15`, notional 50, max
slippage 100 bps, one-week expiry, status ACTIVE. -/
def defaultStrategy (id : Nat) (marketId tag : String) (now : ℤ) : Strategy :=
  { id
    ownerAddress := "0x_ADMIN_WALLET"
    marketId
    sentimentTag := tag
    minPredictionProb := 5/100
    minSentimentScore := 15/100
    notionalAmount := 50
    maxSlippageBps := 100
    expiryTimestamp := now + weekMs
    status := .ACTIVE
    lastExecutedAt := none
    lastTxHash := none }

/-- One iteration of Discovery's loop over recent markets.  The state also
accumulates the `register` calls issued to the Settlement Client; a failed
registration changes nothing in the database (the strategy stays ACTIVE and
unregistered), so the call's outcome is not part of the state. -/
def discoverStep (now : ℤ) (acc : Db × List RegisterCall) (marketId : String) :
    Db × List RegisterCall :=
  match getSentimentTagForMarket marketId with
  | none => acc
  | some tag =>
      if hasRecentSentiment acc.1 now tag then
        if strategyExistsFor acc.1 marketId tag then acc
        else
          let st := defaultStrategy acc.1.nextId marketId tag now
          ({ acc.1 with strategies := acc.1.strategies ++ [st], nextId := acc.1.nextId + 1 },
            acc.2 ++ [discoveryRegisterCall st])
      else acc

/-- `discoverAndCreateStrategies`: returns the grown database and the
`register` calls issued. -/
def discoverAndCreateStrategies (db : Db) (now : ℤ) : Db × List RegisterCall :=
  (recentMarketIds db now).foldl (discoverStep now) (db, [])

/-- `runStrategyExecutionEngine`: run Discovery, then process every ACTIVE
strategy in sequence. -/
def runStrategyExecutionEngine (settle : ExecuteCall → SettlementResult) (now : ℤ)
    (db : Db) : Db :=
  ((discoverAndCreateStrategies db now).1.strategies.filter
      (fun s => s.status = .ACTIVE)).foldl (processStrategy settle now)
    (discoverAndCreateStrategies db now).1

/-- The strategy rows stored for one (market, tag) pair. -/
def strategiesFor (db : Db) (marketId tag : String) : List Strategy :=
  db.strategies.filter (fun s =>
    decide (s.marketId = marketId) && decide (s.sentimentTag = tag))

/-- The manual-execution route (`POST /execute`): rejects unless the strategy
exists with status ACTIVE; with both latest snapshots present it calls the
Settlement Client directly and applies the same success/failure updates as
the Engine. -/
def manualExecuteStrategy (settle : ExecuteCall → SettlementResult) (now : ℤ)
    (db : Db) (sid : Nat) : Db :=
  match getStrategy db sid with
  | none => db
  | some strategy =>
      if strategy.status = .ACTIVE then
        match latestMarketSnapshot db strategy.marketId,
              latestSentimentSnapshot db strategy.sentimentTag with
        | some m, some s =>
            match settle (engineExecuteCall strategy m.probability s.score) with
            | .ok tx =>
                appendLog (setStrategyExecuted db strategy.id now tx)
                  { strategyId := strategy.id, success := true, txHash := some tx, reason := none }
            | .fail reason =>
                appendLog db
                  { strategyId := strategy.id, success := false, txHash := none,
                    reason := some reason }
        | _, _ => db
      else db

/-! ## Operation sequences over the store -/

/-- An externally triggerable operation of the backend. -/
inductive Op where
  | engineRun (settle : ExecuteCall → SettlementResult) (now : ℤ)
  | manualExecute (settle : ExecuteCall → SettlementResult) (now : ℤ) (sid : Nat)

/-- Apply one operation. -/
def applyOp (db : Db) : Op → Db
  | .engineRun settle now => runStrategyExecutionEngine settle now db
  | .manualExecute settle now sid => manualExecuteStrategy settle now db sid

/-- Apply a sequence of operations. -/
def applyOps (db : Db) (ops : List Op) : Db := ops.foldl applyOp db

/-- Store well-formedness: strategy ids are unique and below the id
generator's next value. -/
def WF (db : Db) : Prop :=
  db.strategies.Pairwise (fun a b => a.id ≠ b.id) ∧
    ∀ s ∈ db.strategies, s.id < db.nextId

/-! ## Backtest Simulator -/

/-- One point of the simulator's output. -/
structure SimPoint where
  timestamp : ℤ
  probability : ℚ
  sentiment : ℚ
  wouldExecute : Bool
  deriving Repr, DecidableEq

/-- Accumulator of the nearest-preceding scan: keep the snapshot with the
strictly greater timestamp, the incumbent on ties. -/
def pickLaterSentiment (acc : Option SentimentSnapshot) (s : SentimentSnapshot) :
    Option SentimentSnapshot :=
  match acc with
  | none => some s
  | some a => if a.timestamp < s.timestamp then some s else acc

/-- The nearest-preceding join: among the sentiment snapshots with timestamp
at most `t`, the one with the greatest timestamp (first such row on ties,
matching the stable descending sort and index 0 of the source). -/
def nearestPrecedingSentiment (sentiments : List SentimentSnapshot) (t : ℤ) :
    Option SentimentSnapshot :=
  (sentiments.filter (fun s => decide (s.timestamp ≤ t))).foldl pickLaterSentiment none

/-- Specification predicate for the join: `s` is a preceding snapshot of
maximal timestamp. -/
def isNearestPreceding (sentiments : List SentimentSnapshot) (t : ℤ)
    (s : SentimentSnapshot) : Prop :=
  s ∈ sentiments ∧ s.timestamp ≤ t ∧
    ∀ s' ∈ sentiments, s'.timestamp ≤ t → s'.timestamp ≤ s.timestamp

/-- The simulator's market query: snapshots of the strategy's market inside
the closed range, ordered by timestamp ascending. -/
def marketsInRange (db : Db) (marketId : String) (tFrom tTo : ℤ) : List MarketSnapshot :=
  List.insertionSort (fun a b => a.timestamp ≤ b.timestamp)
    (db.markets.filter (fun m =>
      decide (m.marketId = marketId) && decide (tFrom ≤ m.timestamp) &&
        decide (m.timestamp ≤ tTo)))

/-- The simulator's sentiment query: snapshots of the strategy's tag inside
the closed range, ordered by timestamp ascending. -/
def sentimentsInRange (db : Db) (tag : String) (tFrom tTo : ℤ) : List SentimentSnapshot :=
  List.insertionSort (fun a b => a.timestamp ≤ b.timestamp)
    (db.sentiments.filter (fun s =>
      decide (s.tag = tag) && decide (tFrom ≤ s.timestamp) &&
        decide (s.timestamp ≤ tTo)))

/-- The point one market snapshot contributes, if any: its nearest-preceding
sentiment snapshot's value together with the simulator's decision. -/
def simPointFor (strategy : Strategy) (ss : List SentimentSnapshot)
    (m : MarketSnapshot) : Option SimPoint :=
  (nearestPrecedingSentiment ss m.timestamp).map (fun s =>
    { timestamp := m.timestamp
      probability := m.probability
      sentiment := s.score
      wouldExecute := simulatorEligible strategy.minPredictionProb
        strategy.minSentimentScore m.probability s.score })

/-- One iteration of the simulator's loop: skip a market snapshot with no
preceding sentiment, otherwise push its point and bump the counter when the
decision fires. -/
def simStep (strategy : Strategy) (ss : List SentimentSnapshot)
    (acc : List SimPoint × Nat) (m : MarketSnapshot) : List SimPoint × Nat :=
  match simPointFor strategy ss m with
  | none => acc
  | some p => (acc.1 ++ [p], if p.wouldExecute then acc.2 + 1 else acc.2)

/-- `simulateStrategyExecution`: replay each in-range market snapshot against
its nearest-preceding sentiment snapshot (skipping markets with none),
producing the ordered decision series and the count of would-fire points. -/
def simulateStrategyExecution (strategy : Strategy) (db : Db) (tFrom tTo : ℤ) :
    List SimPoint × Nat :=
  (marketsInRange db strategy.marketId tFrom tTo).foldl
    (simStep strategy (sentimentsInRange db strategy.sentimentTag tFrom tTo)) ([], 0)

/-- Timestamp comparisons are total, so the range queries' sort is total. -/
instance : IsTotal MarketSnapshot (fun a b => a.timestamp ≤ b.timestamp) :=
  ⟨fun a b => le_total a.timestamp b.timestamp⟩

/-- Timestamp comparisons are transitive. -/
instance : IsTrans MarketSnapshot (fun a b => a.timestamp ≤ b.timestamp) :=
  ⟨fun _ _ _ h h' => le_trans h h'⟩

/-! ## On-chain Move module `sentiment_flow::strategy` -/

/-- Abort code: no StrategyStore under the owner. -/
def E_STRATEGY_STORE_NOT_FOUND : ℕ := 1
/-- Abort code: strategy id already registered. -/
def E_STRATEGY_ALREADY_EXISTS : ℕ := 2
/-- Abort code: strategy id not registered. -/
def E_STRATEGY_NOT_FOUND : ℕ := 3
/-- Abort code: strategy already executed. -/
def E_STRATEGY_ALREADY_EXECUTED : ℕ := 4
/-- Abort code: thresholds not met. -/
def E_CONDITIONS_NOT_MET : ℕ := 8

/-- The on-chain `Strategy` resource. -/
structure MoveStrategy where
  id : String
  market_id : String
  sentiment_tag : String
  min_prediction_prob : ℕ
  min_sentiment_score : ℕ
  notional_amount : ℕ
  expiry_timestamp : ℕ
  executed : Bool
  deriving Repr, DecidableEq

/-- The `StrategyStore` resource: a table keyed by strategy id. -/
structure StrategyStore where
  strategies : List (String × MoveStrategy)
  deriving Repr, DecidableEq

/-- One owner's on-chain state (`exists<StrategyStore>(owner)` is `isSome`). -/
abbrev MoveState := Option StrategyStore

/-- `smart_table::contains`. -/
def tableContains (t : List (String × MoveStrategy)) (k : String) : Bool :=
  t.any (fun e => e.1 = k)

/-- `smart_table::borrow`. -/
def tableGet (t : List (String × MoveStrategy)) (k : String) : Option MoveStrategy :=
  (t.find? (fun e => e.1 = k)).map (fun e => e.2)

/-- Write-back of `smart_table::borrow_mut`. -/
def tableSet (t : List (String × MoveStrategy)) (k : String) (v : MoveStrategy) :
    List (String × MoveStrategy) :=
  t.map (fun e => if e.1 = k then (k, v) else e)

/-- The owner's store, created empty when absent (the `move_to` on first
registration). -/
def storeOf (st : MoveState) : StrategyStore :=
  match st with
  | none => { strategies := [] }
  | some s => s

/-- `register_strategy`: create the store if absent, abort when the id is
already present, else add the strategy unexecuted. -/
def register_strategy (st : MoveState) (strategy_id market_id sentiment_tag : String)
    (min_prediction_prob min_sentiment_score notional_amount : ℕ)
    (_max_slippage_bps : ℕ) (expiry_timestamp : ℕ) : Except ℕ MoveState :=
  if tableContains (storeOf st).strategies strategy_id then .error E_STRATEGY_ALREADY_EXISTS
  else .ok (some { strategies := (storeOf st).strategies ++
    [(strategy_id,
      { id := strategy_id, market_id, sentiment_tag, min_prediction_prob,
        min_sentiment_score, notional_amount, expiry_timestamp, executed := false })] })

/-- `execute_strategy`: abort when the store or strategy is missing, when the
strategy was already executed, or when a threshold is unmet; otherwise set
the executed flag. -/
def execute_strategy (st : MoveState) (strategy_id : String) (_market_id : String)
    (prob_bps sentiment_bps : ℕ) : Except ℕ MoveState :=
  match st with
  | none => .error E_STRATEGY_STORE_NOT_FOUND
  | some store =>
      match tableGet store.strategies strategy_id with
      | none => .error E_STRATEGY_NOT_FOUND
      | some s =>
          if s.executed then .error E_STRATEGY_ALREADY_EXECUTED
          else if prob_bps < s.min_prediction_prob then .error E_CONDITIONS_NOT_MET
          else if sentiment_bps < s.min_sentiment_score then .error E_CONDITIONS_NOT_MET
          else .ok (some
            { strategies := tableSet store.strategies strategy_id ({ s with executed := true }) })

/-- An on-chain transaction against the module. -/
inductive MoveOp where
  | reg (strategy_id market_id sentiment_tag : String)
        (min_prediction_prob min_sentiment_score notional_amount
          max_slippage_bps expiry_timestamp : ℕ)
  | exec (strategy_id market_id : String) (prob_bps sentiment_bps : ℕ)

/-- Apply one transaction; an aborted transaction leaves the state unchanged. -/
def moveStep (st : MoveState) : MoveOp → MoveState
  | .reg a b c d e f g h =>
      match register_strategy st a b c d e f g h with
      | .ok st' => st'
      | .error _ => st
  | .exec a b p s =>
      match execute_strategy st a b p s with
      | .ok st' => st'
      | .error _ => st

/-- Apply a transaction sequence. -/
def moveSteps (st : MoveState) (ops : List MoveOp) : MoveState := ops.foldl moveStep st

/-- The executed flag of a registered strategy, when present. -/
def strategyExecutedFlag (st : MoveState) (strategy_id : String) : Option Bool :=
  match st with
  | none => none
  | some store => (tableGet store.strategies strategy_id).map (fun s => s.executed)

/-! ## Concrete fixtures used to instantiate the theorems -/

/-- A strategy over the FED_RATES market and FED sentiment tag with the given
thresholds. -/
def testStrategy (minProb minScore : ℚ) : Strategy :=
  { id := 1
    ownerAddress := "0xA"
    marketId := "FED_RATES"
    sentimentTag := "FED"
    minPredictionProb := minProb
    minSentimentScore := minScore
    notionalAmount := 50
    maxSlippageBps := 100
    expiryTimestamp := 1000000000000000
    status := .ACTIVE
    lastExecutedAt := none
    lastTxHash := none }

/-- A store holding one strategy and one snapshot of each signal, with the
given probability and sentiment values. -/
def testDb (p sv : ℚ) : Db :=
  { strategies := [testStrategy (1/2) 0]
    markets := [{ marketId := "FED_RATES", timestamp := 100, probability := p }]
    sentiments := [{ tag := "FED", timestamp := 100, score := sv }]
    logs := []
    nextId := 2 }

/-- A store with five market points preceded by three sentiment points, the
spec's synthetic backtest series. -/
def simDb : Db :=
  { strategies := []
    markets :=
      [{ marketId := "FED_RATES", timestamp := 40, probability := 1 },
       { marketId := "FED_RATES", timestamp := 50, probability := 1 },
       { marketId := "FED_RATES", timestamp := 60, probability := 0 },
       { marketId := "FED_RATES", timestamp := 70, probability := 1 },
       { marketId := "FED_RATES", timestamp := 80, probability := 1 }]
    sentiments :=
      [{ tag := "FED", timestamp := 10, score := 1 },
       { tag := "FED", timestamp := 20, score := 1 },
       { tag := "FED", timestamp := 30, score := 1 }]
    logs := []
    nextId := 0 }

/-- An empty-strategy store with one fresh opportunity, used to observe the
register call Discovery emits. -/
def discoveryDb : Db :=
  { strategies := []
    markets := [{ marketId := "FED_RATES", timestamp := 1000, probability := 1/2 }]
    sentiments := [{ tag := "FED", timestamp := 1000, score := 1/2 }]
    logs := []
    nextId := 0 }

/-- The fixture strategy after a successful settlement. -/
def executedStrategy : Strategy := { testStrategy (1/2) 0 with status := .EXECUTED }

/-- The fixture store holding only the already-executed strategy. -/
def executedDb : Db := { testDb (6/10) (1/10) with strategies := [executedStrategy] }

/-- On-chain fixture: the state after registering one strategy. -/
def moveSt0 : MoveState := moveStep none (MoveOp.reg ("s1") ("m") ("t") 0 0 1 0 100)

/-- On-chain fixture: the state after executing the registered strategy. -/
def moveSt1 : MoveState := moveStep moveSt0 (MoveOp.exec ("s1") ("m") 5 5)

/-! ## Theorems -/

/-- JS rounding moves a rational by at most one half. -/
theorem jsRound_close (x : ℚ) : |(jsRound x : ℚ) - x| ≤ 1/2 := by
  rw [abs_le]
  constructor
  · have h : x + 1/2 < (⌊x + 1/2⌋ : ℚ) + 1 := Int.lt_floor_add_one _
    simp only [jsRound]
    linarith
  · have h : ((⌊x + 1/2⌋ : ℚ)) ≤ x + 1/2 := Int.floor_le _
    simp only [jsRound]
    linarith

/-- C1: with both latest snapshots present, the Engine's firing-eligibility
decision is true exactly when the snapshot probability reaches
`minPredictionProb` and the snapshot score reaches `minSentimentScore`; with
thresholds 0.5 and 0.0, probability 0.6 and sentiment 0.1 are eligible, and
probability 0.4 is ineligible for every sentiment value. -/
theorem firing_eligibility :
    (∀ (db : Db) (strat : Strategy) (m : MarketSnapshot) (sn : SentimentSnapshot),
      latestMarketSnapshot db strat.marketId = some m →
      latestSentimentSnapshot db strat.sentimentTag = some sn →
      ((shouldExecuteStrategy db strat).shouldExecute = true ↔
        (strat.minPredictionProb ≤ m.probability ∧ strat.minSentimentScore ≤ sn.score))) ∧
    (shouldExecuteStrategy (testDb (6/10) (1/10)) (testStrategy (1/2) 0)).shouldExecute = true ∧
    (∀ sv : ℚ,
      (shouldExecuteStrategy (testDb (4/10) sv) (testStrategy (1/2) 0)).shouldExecute = false) := by
  refine ⟨?_, ?_, ?_⟩
  · intro db strat m sn hm hs
    unfold shouldExecuteStrategy
    rw [hm, hs]
    simp [engineEligible, Bool.and_eq_true, decide_eq_true_eq]
  · show engineEligible (1/2) 0 (6/10) (1/10) = true
    unfold engineEligible
    simp only [Bool.and_eq_true, decide_eq_true_eq]
    norm_num
  · intro sv
    show engineEligible (1/2) 0 (4/10) sv = false
    unfold engineEligible
    have h : ¬((1:ℚ)/2 ≤ 4/10) := by norm_num
    simp [h]
    intro h'
    norm_num at h'

/-- Closed instance of the C1 theorem at the concrete fixture store. -/
theorem firing_eligibility_witness :
    (shouldExecuteStrategy (testDb (6/10) (1/10)) (testStrategy (1/2) 0)).shouldExecute = true ↔
      ((1:ℚ)/2 ≤ 6/10 ∧ (0:ℚ) ≤ 1/10) :=
  firing_eligibility.1 (testDb (6/10) (1/10)) (testStrategy (1/2) 0)
    { marketId := "FED_RATES", timestamp := 100, probability := 6/10 }
    { tag := "FED", timestamp := 100, score := 1/10 } rfl rfl

/-- C8: the Backtest Simulator's eligibility predicate is extensionally equal
to the Engine's, and the Engine's decision under present snapshots is that
shared predicate applied to the latest values. -/
theorem simulator_matches_engine :
    (∀ a b p s : ℚ, simulatorEligible a b p s = engineEligible a b p s) ∧
    (∀ (db : Db) (strat : Strategy) (m : MarketSnapshot) (sn : SentimentSnapshot),
      latestMarketSnapshot db strat.marketId = some m →
      latestSentimentSnapshot db strat.sentimentTag = some sn →
      (shouldExecuteStrategy db strat).shouldExecute =
        simulatorEligible strat.minPredictionProb strat.minSentimentScore
          m.probability sn.score) := by
  refine ⟨fun a b p s => rfl, ?_⟩
  intro db strat m sn hm hs
  unfold shouldExecuteStrategy
  rw [hm, hs]
  rfl

/-- Closed instance of the C8 theorem at the concrete fixture store. -/
theorem simulator_matches_engine_witness :
    (shouldExecuteStrategy (testDb (6/10) (1/10)) (testStrategy (1/2) 0)).shouldExecute =
      simulatorEligible (1/2) 0 (6/10) (1/10) :=
  simulator_matches_engine.2 (testDb (6/10) (1/10)) (testStrategy (1/2) 0)
    { marketId := "FED_RATES", timestamp := 100, probability := 6/10 }
    { tag := "FED", timestamp := 100, score := 1/10 } rfl rfl

/-- C9: both basis-point conversions round-trip within 1/10000. -/
theorem conversion_roundtrip (p s : ℚ) (hp0 : 0 ≤ p) (hp1 : p ≤ 1)
    (hs0 : -1 ≤ s) (hs1 : s ≤ 1) :
    |bpsToProb (probToBps p) - p| ≤ 1/10000 ∧
      |bpsToSentiment (sentimentToBps s) - s| ≤ 1/10000 := by
  constructor
  · have h := jsRound_close (p * 10000)
    have e : bpsToProb (probToBps p) - p =
        ((jsRound (p * 10000) : ℚ) - p * 10000) / 10000 := by
      unfold bpsToProb probToBps
      ring
    rw [e, abs_div, abs_of_pos (show (0:ℚ) < 10000 by norm_num)]
    linarith
  · have h := jsRound_close ((s + 1) * 5000)
    have e : bpsToSentiment (sentimentToBps s) - s =
        ((jsRound ((s + 1) * 5000) : ℚ) - (s + 1) * 5000) / 5000 := by
      unfold bpsToSentiment sentimentToBps
      ring
    rw [e, abs_div, abs_of_pos (show (0:ℚ) < 5000 by norm_num)]
    linarith

/-- Closed instance of the C9 theorem at concrete in-range values. -/
theorem conversion_roundtrip_witness :
    |bpsToProb (probToBps (1/3)) - 1/3| ≤ 1/10000 ∧
      |bpsToSentiment (sentimentToBps (-1/3)) - (-1/3)| ≤ 1/10000 :=
  conversion_roundtrip (1/3) (-1/3) (by norm_num) (by norm_num) (by norm_num) (by norm_num)

/-- C5: an ACTIVE strategy already past expiry is only transitioned to
EXPIRED: the run's effect on the store equals the pure expiry update — no
log entry is appended, and the result does not depend on the settlement
client or the snapshot tables. -/
theorem expired_strategy_short_circuit (settle : ExecuteCall → SettlementResult)
    (now : ℤ) (db : Db) (strategy : Strategy)
    (h : strategy.expiryTimestamp < now) :
    processStrategy settle now db strategy = setStrategyExpired db strategy.id ∧
    (processStrategy settle now db strategy).logs = db.logs ∧
    (∀ s ∈ (processStrategy settle now db strategy).strategies,
      s.id = strategy.id → s.status = .EXPIRED) := by
  have e : processStrategy settle now db strategy = setStrategyExpired db strategy.id := by
    unfold processStrategy
    rw [if_pos h]
  refine ⟨e, by rw [e]; rfl, ?_⟩
  rw [e]
  intro s hs hid
  unfold setStrategyExpired at hs
  simp only [List.mem_map] at hs
  obtain ⟨a, _, rfl⟩ := hs
  by_cases hc : a.id = strategy.id
  · simp [hc]
  · simp only [if_neg hc] at hid ⊢
    exact absurd hid hc

/-- Closed instance of the C5 theorem: an expired fixture strategy. -/
theorem expired_strategy_short_circuit_witness :
    processStrategy (fun _ => SettlementResult.fail ("down")) 2000000000000000
        (testDb (6/10) (1/10)) (testStrategy (1/2) 0) =
      setStrategyExpired (testDb (6/10) (1/10)) (testStrategy (1/2) 0).id :=
  (expired_strategy_short_circuit (fun _ => SettlementResult.fail ("down"))
    2000000000000000 (testDb (6/10) (1/10)) (testStrategy (1/2) 0) (by decide)).1

/-- C6: when the settlement call for an eligible strategy fails, the store's
strategy rows are untouched (status stays ACTIVE, `lastExecutedAt` and
`lastTxHash` unchanged), exactly one failed log entry carrying the failure
reason is appended, and the strategy is still eligible afterwards. -/
theorem settlement_failure_leaves_active (settle : ExecuteCall → SettlementResult)
    (now : ℤ) (db : Db) (strategy : Strategy) (r : String)
    (helig : (shouldExecuteStrategy db strategy).shouldExecute = true)
    (hfail : settle (engineExecuteCall strategy
        (shouldExecuteStrategy db strategy).probability
        (shouldExecuteStrategy db strategy).sentiment) = .fail r)
    (hr : r ≠ "") :
    executeStrategy settle now db strategy =
      appendLog db { strategyId := strategy.id, success := false,
                     txHash := none, reason := some r } ∧
    (executeStrategy settle now db strategy).strategies = db.strategies ∧
    logsFor (executeStrategy settle now db strategy) strategy.id =
      logsFor db strategy.id ++
        [{ strategyId := strategy.id, success := false, txHash := none, reason := some r }] ∧
    (some r : Option String) ≠ some ("") ∧
    (shouldExecuteStrategy (executeStrategy settle now db strategy) strategy).shouldExecute
      = true := by
  have e : executeStrategy settle now db strategy =
      appendLog db { strategyId := strategy.id, success := false,
                     txHash := none, reason := some r } := by
    unfold executeStrategy
    rw [helig, hfail]
    simp
  refine ⟨e, by rw [e]; rfl, ?_, by simpa using hr, ?_⟩
  · rw [e]
    unfold logsFor appendLog
    rw [List.filter_append]
    simp
  · rw [e]
    exact helig

/-- Closed instance of the C6 theorem: a failing settlement client over the
fixture store. -/
theorem settlement_failure_leaves_active_witness :
    executeStrategy (fun _ => SettlementResult.fail ("boom")) 0
        (testDb (6/10) (1/10)) (testStrategy (1/2) 0) =
      appendLog (testDb (6/10) (1/10))
        { strategyId := 1, success := false, txHash := none, reason := some ("boom") } :=
  (settlement_failure_leaves_active (fun _ => SettlementResult.fail ("boom")) 0
    (testDb (6/10) (1/10)) (testStrategy (1/2) 0) "boom"
    (by show engineEligible (1/2) 0 (6/10) (1/10) = true
        unfold engineEligible
        simp only [Bool.and_eq_true, decide_eq_true_eq]
        norm_num)
    rfl (by decide)).1

/-- C3 (refuting the claim for the Discovery registration path): the Engine's
`execute` call does use the documented conversions, but the `register` call
Discovery emits converts the sentiment threshold with `round(score * 10000)`
instead of the affine map `round((score + 1) * 5000)`: for the default
threshold 0.15 it transmits 1500, while the affine map yields 5750. -/
theorem discovery_sentiment_bps_mismatch :
    (∀ (strategy : Strategy) (p s : ℚ),
      (engineExecuteCall strategy p s).probBps = probToBps p ∧
      (engineExecuteCall strategy p s).sentimentBps = sentimentToBps s) ∧
    ((discoverAndCreateStrategies discoveryDb 1000).2.map
      (fun c => c.minSentimentScoreBps)) = [1500] ∧
    sentimentToBps (15/100) = 5750 ∧ (1500 : ℤ) ≠ 5750 := by
  have hsent : hasRecentSentiment discoveryDb 1000 ("FED") = true := by
    unfold hasRecentSentiment discoveryDb dayMs
    simp only [List.any_cons, List.any_nil, Bool.or_false, Bool.and_eq_true,
      decide_eq_true_eq]
    norm_num
  have hstep : discoverAndCreateStrategies discoveryDb 1000 =
      ({ discoveryDb with
          strategies := [defaultStrategy 0 ("FED_RATES") ("FED") 1000], nextId := 1 },
        [discoveryRegisterCall (defaultStrategy 0 ("FED_RATES") ("FED") 1000)]) := by
    unfold discoverAndCreateStrategies
    rw [show recentMarketIds discoveryDb 1000 = ["FED_RATES"] from rfl]
    simp only [List.foldl_cons, List.foldl_nil, discoverStep]
    rw [show getSentimentTagForMarket ("FED_RATES") = some ("FED") from rfl]
    simp only [hsent, if_true]
    rw [show strategyExistsFor discoveryDb ("FED_RATES") ("FED") = false from rfl]
    simp only [Bool.false_eq_true, if_false]
    rfl
  refine ⟨fun strategy p s => ⟨rfl, rfl⟩, ?_, ?_, by decide⟩
  · rw [hstep]
    unfold discoveryRegisterCall defaultStrategy jsRound
    simp only [List.map_cons, List.map_nil]
    norm_num
  · unfold sentimentToBps jsRound
    norm_num

/-- Unfolding equation of the scan step on an empty accumulator. -/
theorem pickLaterSentiment_none (s : SentimentSnapshot) :
    pickLaterSentiment none s = some s := rfl

/-- Unfolding equation of the scan step on a non-empty accumulator. -/
theorem pickLaterSentiment_some (a s : SentimentSnapshot) :
    pickLaterSentiment (some a) s =
      if a.timestamp < s.timestamp then some s else some a := rfl

/-- The nearest-preceding scan returns none only from an empty input. -/
theorem pickLater_fold_none :
    ∀ (l : List SentimentSnapshot) (acc : Option SentimentSnapshot),
      l.foldl pickLaterSentiment acc = none → acc = none ∧ l = [] := by
  intro l
  induction l with
  | nil => exact fun acc h => ⟨h, rfl⟩
  | cons x l ih =>
      intro acc h
      rcases ih (pickLaterSentiment acc x) h with ⟨h1, -⟩
      exfalso
      cases acc with
      | none => exact Option.noConfusion h1
      | some a =>
          rw [pickLaterSentiment_some] at h1
          by_cases hc : a.timestamp < x.timestamp
          · rw [if_pos hc] at h1
            exact Option.noConfusion h1
          · rw [if_neg hc] at h1
            exact Option.noConfusion h1

/-- The nearest-preceding scan returns an element of the input (or the seed)
whose timestamp dominates every input element and the seed. -/
theorem pickLater_fold_some :
    ∀ (l : List SentimentSnapshot) (acc : Option SentimentSnapshot) (s : SentimentSnapshot),
      l.foldl pickLaterSentiment acc = some s →
        (s ∈ l ∨ acc = some s) ∧ (∀ x ∈ l, x.timestamp ≤ s.timestamp) ∧
          (∀ a, acc = some a → a.timestamp ≤ s.timestamp) := by
  intro l
  induction l with
  | nil =>
      intro acc s h
      refine ⟨Or.inr h, by simp, fun a ha => ?_⟩
      rw [ha] at h
      cases h
      exact le_refl _
  | cons x l ih =>
      intro acc s h
      rcases ih (pickLaterSentiment acc x) s h with ⟨h1, h2, h3⟩
      cases acc with
      | none =>
          have hx : x.timestamp ≤ s.timestamp := h3 x rfl
          refine ⟨?_, ?_, by simp⟩
          · rcases h1 with h1 | h1
            · exact Or.inl (List.mem_cons_of_mem _ h1)
            · cases h1
              exact Or.inl (List.mem_cons_self _ _)
          · intro y hy
            rcases List.mem_cons.mp hy with rfl | hy
            · exact hx
            · exact h2 y hy
      | some a =>
          rw [List.foldl_cons, pickLaterSentiment_some] at h
          rw [pickLaterSentiment_some] at h1 h3
          by_cases hc : a.timestamp < x.timestamp
          · rw [if_pos hc] at h1 h3 h
            have hx : x.timestamp ≤ s.timestamp := h3 x rfl
            refine ⟨?_, ?_, ?_⟩
            · rcases h1 with h1 | h1
              · exact Or.inl (List.mem_cons_of_mem _ h1)
              · cases h1
                exact Or.inl (List.mem_cons_self _ _)
            · intro y hy
              rcases List.mem_cons.mp hy with rfl | hy
              · exact hx
              · exact h2 y hy
            · intro b hb
              cases hb
              exact le_trans (le_of_lt hc) hx
          · rw [if_neg hc] at h1 h3 h
            have ha : a.timestamp ≤ s.timestamp := h3 a rfl
            refine ⟨?_, ?_, ?_⟩
            · rcases h1 with h1 | h1
              · exact Or.inl (List.mem_cons_of_mem _ h1)
              · exact Or.inr h1
            · intro y hy
              rcases List.mem_cons.mp hy with rfl | hy
              · exact le_trans (le_of_not_lt hc) ha
              · exact h2 y hy
            · intro b hb
              cases hb
              exact ha

/-- A successful nearest-preceding join satisfies its specification. -/
theorem nearestPreceding_spec (ss : List SentimentSnapshot) (t : ℤ)
    (s : SentimentSnapshot) (h : nearestPrecedingSentiment ss t = some s) :
    isNearestPreceding ss t s := by
  unfold nearestPrecedingSentiment at h
  rcases pickLater_fold_some _ _ _ h with ⟨h1, h2, -⟩
  have hmem : s ∈ ss.filter (fun s => decide (s.timestamp ≤ t)) := by
    rcases h1 with h1 | h1
    · exact h1
    · exact Option.noConfusion h1
  rcases List.mem_filter.mp hmem with ⟨hss, hts⟩
  refine ⟨hss, by simpa using hts, fun s' hs' hts' => ?_⟩
  exact h2 s' (List.mem_filter.mpr ⟨hs', by simpa using hts'⟩)

/-- The nearest-preceding join succeeds exactly when a preceding sentiment
snapshot exists. -/
theorem nearestPreceding_isSome (ss : List SentimentSnapshot) (t : ℤ) :
    (nearestPrecedingSentiment ss t).isSome =
      ss.any (fun s => decide (s.timestamp ≤ t)) := by
  cases h : nearestPrecedingSentiment ss t with
  | none =>
      unfold nearestPrecedingSentiment at h
      rcases pickLater_fold_none _ _ h with ⟨-, hnil⟩
      have : ∀ x ∈ ss, ¬(decide (x.timestamp ≤ t) = true) := by
        intro x hx hdx
        have : x ∈ ss.filter (fun s => decide (s.timestamp ≤ t)) :=
          List.mem_filter.mpr ⟨hx, hdx⟩
        rw [hnil] at this
        exact absurd this (List.not_mem_nil x)
      simp only [Option.isSome_none]
      exact (List.any_eq_false.mpr this).symm
  | some s =>
      have hs := nearestPreceding_spec ss t s h
      simp only [Option.isSome_some]
      exact (List.any_eq_true.mpr ⟨s, hs.1, by simpa using hs.2.1⟩).symm

/-- filterMap keeps as many elements as the isSome filter. -/
theorem length_filterMap_eq_filter {α β : Type} (f : α → Option β) :
    ∀ l : List α, (l.filterMap f).length = (l.filter (fun a => (f a).isSome)).length := by
  intro l
  induction l with
  | nil => rfl
  | cons a l ih => cases h : f a <;> simp [List.filterMap_cons, List.filter_cons, h, ih]

/-- Unrolling the simulator's fold: points are the filterMap of per-market
points, and the counter counts the firing points. -/
theorem simStep_fold (strategy : Strategy) (ss : List SentimentSnapshot) :
    ∀ (ms : List MarketSnapshot) (acc : List SimPoint × Nat),
      (ms.foldl (simStep strategy ss) acc).1 =
        acc.1 ++ ms.filterMap (simPointFor strategy ss) ∧
      (ms.foldl (simStep strategy ss) acc).2 =
        acc.2 + (ms.filterMap (simPointFor strategy ss)).countP (fun p => p.wouldExecute) := by
  intro ms
  induction ms with
  | nil => intro acc; simp
  | cons m ms ih =>
      intro acc
      rw [List.foldl_cons, List.filterMap_cons]
      cases hp : simPointFor strategy ss m with
      | none =>
          have := ih acc
          rw [simStep, hp] at *
          exact this
      | some p =>
          rcases ih (acc.1 ++ [p], if p.wouldExecute then acc.2 + 1 else acc.2) with ⟨ih1, ih2⟩
          rw [simStep, hp]
          constructor
          · rw [ih1]
            simp
          · rw [ih2, List.countP_cons]
            cases hw : p.wouldExecute <;> simp [hw] <;> omega

/-- C7: the Backtest Simulator emits exactly one point per in-range market
snapshot that has a preceding in-range sentiment snapshot, pairs each with
the nearest-preceding sentiment value, orders the output by market timestamp
ascending, and counts exactly the firing points. -/
theorem backtest_characterization (strategy : Strategy) (db : Db) (tFrom tTo : ℤ) :
    (simulateStrategyExecution strategy db tFrom tTo).1 =
      (marketsInRange db strategy.marketId tFrom tTo).filterMap
        (simPointFor strategy (sentimentsInRange db strategy.sentimentTag tFrom tTo)) ∧
    (simulateStrategyExecution strategy db tFrom tTo).1.length =
      ((marketsInRange db strategy.marketId tFrom tTo).filter
        (fun m => (sentimentsInRange db strategy.sentimentTag tFrom tTo).any
          (fun s => decide (s.timestamp ≤ m.timestamp)))).length ∧
    (∀ p ∈ (simulateStrategyExecution strategy db tFrom tTo).1,
      ∃ m ∈ marketsInRange db strategy.marketId tFrom tTo,
        ∃ s, isNearestPreceding (sentimentsInRange db strategy.sentimentTag tFrom tTo)
            m.timestamp s ∧
          p = { timestamp := m.timestamp, probability := m.probability,
                sentiment := s.score,
                wouldExecute := simulatorEligible strategy.minPredictionProb
                  strategy.minSentimentScore m.probability s.score }) ∧
    ((simulateStrategyExecution strategy db tFrom tTo).1.map
      (fun p => p.timestamp)).Pairwise (fun a b => a ≤ b) ∧
    (simulateStrategyExecution strategy db tFrom tTo).2 =
      ((simulateStrategyExecution strategy db tFrom tTo).1.filter
        (fun p => p.wouldExecute)).length := by
  have hfold := simStep_fold strategy (sentimentsInRange db strategy.sentimentTag tFrom tTo)
    (marketsInRange db strategy.marketId tFrom tTo) ([], 0)
  have hpts : (simulateStrategyExecution strategy db tFrom tTo).1 =
      (marketsInRange db strategy.marketId tFrom tTo).filterMap
        (simPointFor strategy (sentimentsInRange db strategy.sentimentTag tFrom tTo)) := by
    unfold simulateStrategyExecution
    simpa using hfold.1
  have hsorted : (marketsInRange db strategy.marketId tFrom tTo).Pairwise
      (fun a b => a.timestamp ≤ b.timestamp) :=
    List.sorted_insertionSort _ _
  have hts : ∀ (m : MarketSnapshot) (p : SimPoint),
      simPointFor strategy (sentimentsInRange db strategy.sentimentTag tFrom tTo) m = some p →
        p.timestamp = m.timestamp := by
    intro m p hp
    unfold simPointFor at hp
    rcases Option.map_eq_some'.mp hp with ⟨s, -, rfl⟩
    rfl
  refine ⟨hpts, ?_, ?_, ?_, ?_⟩
  · rw [hpts, length_filterMap_eq_filter]
    congr 1
    apply List.filter_congr
    intro m _
    rw [← nearestPreceding_isSome (sentimentsInRange db strategy.sentimentTag tFrom tTo)
      m.timestamp]
    unfold simPointFor
    cases nearestPrecedingSentiment (sentimentsInRange db strategy.sentimentTag tFrom tTo)
      m.timestamp <;> rfl
  · intro p hp
    rw [hpts] at hp
    rcases List.mem_filterMap.mp hp with ⟨m, hm, hfm⟩
    refine ⟨m, hm, ?_⟩
    unfold simPointFor at hfm
    rcases Option.map_eq_some'.mp hfm with ⟨s, hs, rfl⟩
    exact ⟨s, nearestPreceding_spec _ _ _ hs, rfl⟩
  · rw [hpts, List.pairwise_map, List.pairwise_filterMap]
    refine hsorted.imp_of_mem ?_
    intro a b _ _ hab p hp p' hp'
    rw [hts a p hp, hts b p' hp']
    exact hab
  · have hcnt : (simulateStrategyExecution strategy db tFrom tTo).2 =
        ((marketsInRange db strategy.marketId tFrom tTo).filterMap
          (simPointFor strategy (sentimentsInRange db strategy.sentimentTag tFrom tTo))).countP
            (fun p => p.wouldExecute) := by
      unfold simulateStrategyExecution
      simpa using hfold.2
    rw [hcnt, hpts, List.countP_eq_length_filter]

/-- Closed instance of the C7 theorem at the five-market/three-sentiment
fixture series. -/
theorem backtest_characterization_witness :
    (simulateStrategyExecution (testStrategy 0 0) simDb 0 1000).1.length =
      ((marketsInRange simDb (testStrategy 0 0).marketId 0 1000).filter
        (fun m => (sentimentsInRange simDb (testStrategy 0 0).sentimentTag 0 1000).any
          (fun s => decide (s.timestamp ≤ m.timestamp)))).length ∧
    (simulateStrategyExecution (testStrategy 0 0) simDb 0 1000).1.length = 5 :=
  ⟨(backtest_characterization (testStrategy 0 0) simDb 0 1000).2.1, by decide⟩

/-- Case analysis of one Discovery iteration: either nothing happens (no
tag, stale sentiment, or an existing strategy), or exactly one default
strategy is created and one register call emitted. -/
theorem discoverStep_cases (now : ℤ) (acc : Db × List RegisterCall) (mid : String) :
    (discoverStep now acc mid = acc ∧
      (getSentimentTagForMarket mid = none ∨
        (∃ tag, getSentimentTagForMarket mid = some tag ∧
          hasRecentSentiment acc.1 now tag = false) ∨
        (∃ tag, getSentimentTagForMarket mid = some tag ∧
          strategyExistsFor acc.1 mid tag = true))) ∨
    (∃ tag, getSentimentTagForMarket mid = some tag ∧
      hasRecentSentiment acc.1 now tag = true ∧
      strategyExistsFor acc.1 mid tag = false ∧
      discoverStep now acc mid =
        ({ acc.1 with
            strategies := acc.1.strategies ++ [defaultStrategy acc.1.nextId mid tag now],
            nextId := acc.1.nextId + 1 },
          acc.2 ++ [discoveryRegisterCall (defaultStrategy acc.1.nextId mid tag now)])) := by
  unfold discoverStep
  cases htag : getSentimentTagForMarket mid with
  | none => exact Or.inl ⟨rfl, Or.inl rfl⟩
  | some tag =>
      by_cases hrs : hasRecentSentiment acc.1 now tag = true
      · by_cases hex : strategyExistsFor acc.1 mid tag = true
        · refine Or.inl ⟨?_, Or.inr (Or.inr ⟨tag, rfl, hex⟩)⟩
          simp [hrs, hex]
        · refine Or.inr ⟨tag, rfl, hrs, Bool.eq_false_iff.mpr hex, ?_⟩
          simp [hrs, hex]
      · refine Or.inl ⟨?_, Or.inr (Or.inl ⟨tag, rfl, Bool.eq_false_iff.mpr hrs⟩)⟩
        simp [hrs]

/-- One Discovery iteration only appends newly created ACTIVE strategies and
touches nothing else in the store. -/
theorem discoverStep_shape (now : ℤ) (acc : Db × List RegisterCall) (mid : String) :
    ((discoverStep now acc mid).1.markets = acc.1.markets ∧
      (discoverStep now acc mid).1.sentiments = acc.1.sentiments ∧
      (discoverStep now acc mid).1.logs = acc.1.logs) ∧
    acc.1.nextId ≤ (discoverStep now acc mid).1.nextId ∧
    ∃ new : List Strategy,
      (discoverStep now acc mid).1.strategies = acc.1.strategies ++ new ∧
      ∀ st ∈ new, st.id = acc.1.nextId ∧ st.status = .ACTIVE := by
  rcases discoverStep_cases now acc mid with ⟨h, -⟩ | ⟨tag, -, -, -, h⟩
  · rw [h]
    exact ⟨⟨rfl, rfl, rfl⟩, le_refl _, [], by simp, by simp⟩
  · rw [h]
    refine ⟨⟨rfl, rfl, rfl⟩, Nat.le_succ _, [defaultStrategy acc.1.nextId mid tag now], rfl, ?_⟩
    intro st hst
    rw [List.mem_singleton] at hst
    subst hst
    exact ⟨rfl, rfl⟩

/-- The Discovery loop only appends newly created ACTIVE strategies, with
fresh ids, and touches nothing else in the store. -/
theorem discover_fold_shape (now : ℤ) :
    ∀ (mids : List String) (acc : Db × List RegisterCall),
      ((mids.foldl (discoverStep now) acc).1.markets = acc.1.markets ∧
        (mids.foldl (discoverStep now) acc).1.sentiments = acc.1.sentiments ∧
        (mids.foldl (discoverStep now) acc).1.logs = acc.1.logs) ∧
      acc.1.nextId ≤ (mids.foldl (discoverStep now) acc).1.nextId ∧
      ∃ new : List Strategy,
        (mids.foldl (discoverStep now) acc).1.strategies = acc.1.strategies ++ new ∧
        ∀ st ∈ new, acc.1.nextId ≤ st.id ∧ st.status = .ACTIVE := by
  intro mids
  induction mids with
  | nil => exact fun acc => ⟨⟨rfl, rfl, rfl⟩, le_refl _, [], by simp, by simp⟩
  | cons mid mids ih =>
      intro acc
      rw [List.foldl_cons]
      rcases discoverStep_shape now acc mid with ⟨⟨f1, f2, f3⟩, hn, new1, hs1, hnew1⟩
      rcases ih (discoverStep now acc mid) with ⟨⟨g1, g2, g3⟩, gn, new2, hs2, hnew2⟩
      refine ⟨⟨g1.trans f1, g2.trans f2, g3.trans f3⟩, le_trans hn gn,
        new1 ++ new2, ?_, ?_⟩
      · rw [hs2, hs1, List.append_assoc]
      · intro st hst
        rcases List.mem_append.mp hst with h' | h'
        · rcases hnew1 st h' with ⟨hid, hstat⟩
          exact ⟨le_of_eq hid.symm, hstat⟩
        · rcases hnew2 st h' with ⟨hid, hstat⟩
          exact ⟨le_trans hn hid, hstat⟩

/-- The recent-sentiment check reads only the sentiment table. -/
theorem hasRecentSentiment_congr (A B : Db) (now : ℤ) (tag : String)
    (h : A.sentiments = B.sentiments) :
    hasRecentSentiment A now tag = hasRecentSentiment B now tag := by
  unfold hasRecentSentiment
  rw [h]

/-- The duplicate check is monotone under appending strategies. -/
theorem strategyExistsFor_mono (A B : Db) (l : List Strategy)
    (hs : B.strategies = A.strategies ++ l) (mid tag : String)
    (h : strategyExistsFor A mid tag = true) : strategyExistsFor B mid tag = true := by
  unfold strategyExistsFor at *
  rw [hs, List.any_append, h]
  rfl

/-- The duplicate check is monotone along the Discovery loop. -/
theorem strategyExistsFor_fold_mono (now : ℤ) (mids : List String)
    (acc : Db × List RegisterCall) (mid tag : String)
    (h : strategyExistsFor acc.1 mid tag = true) :
    strategyExistsFor ((mids.foldl (discoverStep now) acc).1) mid tag = true := by
  rcases discover_fold_shape now mids acc with ⟨-, -, new, hs, -⟩
  exact strategyExistsFor_mono acc.1 _ new hs mid tag h

/-- After the Discovery loop, every processed market whose tag had fresh
sentiment at loop entry has a strategy on file. -/
theorem discover_fold_post (now : ℤ) :
    ∀ (mids : List String) (acc : Db × List RegisterCall) (mid tag : String),
      mid ∈ mids → getSentimentTagForMarket mid = some tag →
      hasRecentSentiment acc.1 now tag = true →
      strategyExistsFor ((mids.foldl (discoverStep now) acc).1) mid tag = true := by
  intro mids
  induction mids with
  | nil => exact fun acc mid tag h => absurd h (List.not_mem_nil _)
  | cons m mids ih =>
      intro acc mid tag hmem htag hsent
      rw [List.foldl_cons]
      rcases List.mem_cons.mp hmem with rfl | hmem'
      · apply strategyExistsFor_fold_mono
        rcases discoverStep_cases now acc mid with ⟨h, hwhy⟩ | ⟨tag', htag', -, -, h⟩
        · rw [h]
          rcases hwhy with hnone | ⟨tag', htag', hfalse⟩ | ⟨tag', htag', htrue⟩
          · rw [htag] at hnone
            exact Option.noConfusion hnone
          · rw [htag] at htag'
            cases htag'
            rw [hsent] at hfalse
            exact Bool.noConfusion hfalse
          · rw [htag] at htag'
            cases htag'
            exact htrue
        · rw [htag] at htag'
          cases htag'
          rw [h]
          unfold strategyExistsFor
          rw [List.any_append]
          have : Strategy.marketId (defaultStrategy acc.1.nextId mid tag now) = mid := rfl
          simp [defaultStrategy]
      · rcases discoverStep_shape now acc m with ⟨⟨-, f2, -⟩, -, -⟩
        exact ih (discoverStep now acc m) mid tag hmem' htag
          (by rw [hasRecentSentiment_congr _ acc.1 now tag f2]; exact hsent)

/-- A loop whose every iteration fixes the accumulator fixes the fold. -/
theorem foldl_fixed {α σ : Type} (f : σ → α → σ) :
    ∀ (l : List α) (s : σ), (∀ a ∈ l, f s a = s) → l.foldl f s = s := by
  intro l
  induction l with
  | nil => intro s _; rfl
  | cons a l ih =>
      intro s h
      rw [List.foldl_cons, h a (List.mem_cons_self _ _)]
      exact ih s (fun b hb => h b (List.mem_cons_of_mem _ hb))

/-- Along the Discovery loop, the strategies stored for a pair that already
has one are never touched. -/
theorem discover_fold_keep (now : ℤ) (mid tag : String) :
    ∀ (mids : List String) (acc : Db × List RegisterCall),
      strategyExistsFor acc.1 mid tag = true →
      strategiesFor ((mids.foldl (discoverStep now) acc).1) mid tag =
        strategiesFor acc.1 mid tag := by
  intro mids
  induction mids with
  | nil => exact fun acc _ => rfl
  | cons m mids ih =>
      intro acc hex
      rw [List.foldl_cons]
      have hshape := discoverStep_shape now acc m
      rcases hshape with ⟨-, -, new, hs, -⟩
      have hex' : strategyExistsFor (discoverStep now acc m).1 mid tag = true :=
        strategyExistsFor_mono acc.1 _ new hs mid tag hex
      rw [ih (discoverStep now acc m) hex']
      rcases discoverStep_cases now acc m with ⟨h, -⟩ | ⟨tag', -, -, hnodup, h⟩
      · rw [h]
      · rw [h]
        unfold strategiesFor
        rw [List.filter_append]
        suffices hnil : List.filter (fun s =>
            decide (s.marketId = mid) && decide (s.sentimentTag = tag))
            [defaultStrategy acc.1.nextId m tag' now] = [] by
          rw [hnil, List.append_nil]
        by_cases hmt : m = mid ∧ tag' = tag
        · exfalso
          rcases hmt with ⟨rfl, rfl⟩
          exact Bool.noConfusion (hex.symm.trans hnodup)
        · have hpred : (decide ((defaultStrategy acc.1.nextId m tag' now).marketId = mid) &&
              decide ((defaultStrategy acc.1.nextId m tag' now).sentimentTag = tag)) = false := by
            have hm : (defaultStrategy acc.1.nextId m tag' now).marketId = m := rfl
            have ht : (defaultStrategy acc.1.nextId m tag' now).sentimentTag = tag' := rfl
            rw [hm, ht]
            by_cases h1 : m = mid
            · have h2 : ¬(tag' = tag) := fun h2 => hmt ⟨h1, h2⟩
              simp [h2]
            · simp [h1]
          simp [List.filter, hpred]

/-- The recent-market scan reads only the market table. -/
theorem recentMarketIds_congr (A B : Db) (now : ℤ) (h : A.markets = B.markets) :
    recentMarketIds A now = recentMarketIds B now := by
  unfold recentMarketIds
  rw [h]

/-- C4: Discovery is idempotent: a pair that already has a strategy on file
gains no new one, and re-running Discovery over the unchanged stored
snapshots changes nothing and emits no register call. -/
theorem discovery_idempotent (db : Db) (now : ℤ) :
    (∀ marketId tag, strategyExistsFor db marketId tag = true →
      strategiesFor (discoverAndCreateStrategies db now).1 marketId tag =
        strategiesFor db marketId tag) ∧
    discoverAndCreateStrategies (discoverAndCreateStrategies db now).1 now =
      ((discoverAndCreateStrategies db now).1, []) := by
  constructor
  · intro marketId tag hex
    exact discover_fold_keep now marketId tag (recentMarketIds db now) (db, []) hex
  · rcases discover_fold_shape now (recentMarketIds db now) (db, []) with
      ⟨⟨hmkt, hsent, -⟩, -, -⟩
    unfold discoverAndCreateStrategies
    rw [recentMarketIds_congr (((recentMarketIds db now).foldl (discoverStep now) (db, [])).1)
      db now hmkt]
    apply foldl_fixed
    intro mid hmid
    have hpost := discover_fold_post now (recentMarketIds db now) (db, []) mid
    rcases discoverStep_cases now
        (((recentMarketIds db now).foldl (discoverStep now) (db, [])).1, []) mid with
      ⟨h, -⟩ | ⟨tag, htag, hrs, hnodup, -⟩
    · exact h
    · exfalso
      have hrs_db : hasRecentSentiment db now tag = true := by
        rw [← hasRecentSentiment_congr
          (((recentMarketIds db now).foldl (discoverStep now) (db, [])).1) db now tag hsent]
        exact hrs
      have := hpost tag hmid htag hrs_db
      exact Bool.noConfusion (this.symm.trans hnodup)

/-- Closed instance of the C4 theorem: the second Discovery run over the
fixture store is a no-op. -/
theorem discovery_idempotent_witness :
    discoverAndCreateStrategies (discoverAndCreateStrategies discoveryDb 1000).1 1000 =
      ((discoverAndCreateStrategies discoveryDb 1000).1, []) :=
  (discovery_idempotent discoveryDb 1000).2

/-- An id-guarded, id-preserving row update leaves the lookup of any other id
unchanged. -/
theorem find?_guarded_map (tid sid : Nat) (h : tid ≠ sid) (f : Strategy → Strategy)
    (hf : ∀ s, (f s).id = s.id) :
    ∀ l : List Strategy,
      (l.map (fun s => if s.id = tid then f s else s)).find? (fun s => s.id = sid) =
        l.find? (fun s => s.id = sid) := by
  intro l
  induction l with
  | nil => rfl
  | cons a l ih =>
      rw [List.map_cons]
      by_cases ha : a.id = sid
      · have hat : ¬(a.id = tid) := by
          rw [ha]
          exact fun he => h he.symm
        rw [if_neg hat, List.find?_cons_of_pos _ (by exact decide_eq_true ha),
          List.find?_cons_of_pos _ (by exact decide_eq_true ha)]
      · by_cases hat : a.id = tid
        · have hga : ¬((if a.id = tid then f a else a).id = sid) := by
            rw [if_pos hat, hf]
            exact ha
          rw [List.find?_cons_of_neg _ (by simpa using hga),
            List.find?_cons_of_neg _ (by simpa using ha), ih]
        · rw [if_neg hat, List.find?_cons_of_neg _ (by simpa using ha),
            List.find?_cons_of_neg _ (by simpa using ha), ih]

/-- Marking some other strategy executed does not change the lookup. -/
theorem getStrategy_setExecuted_other (db : Db) (tid sid : Nat) (now : ℤ) (tx : String)
    (h : tid ≠ sid) :
    getStrategy (setStrategyExecuted db tid now tx) sid = getStrategy db sid := by
  unfold getStrategy setStrategyExecuted
  exact find?_guarded_map tid sid h
    (fun s => { s with status := .EXECUTED, lastExecutedAt := some now, lastTxHash := some tx })
    (fun s => rfl) db.strategies

/-- Expiring some other strategy does not change the lookup. -/
theorem getStrategy_setExpired_other (db : Db) (tid sid : Nat) (h : tid ≠ sid) :
    getStrategy (setStrategyExpired db tid) sid = getStrategy db sid := by
  unfold getStrategy setStrategyExpired
  exact find?_guarded_map tid sid h (fun s => { s with status := .EXPIRED })
    (fun s => rfl) db.strategies

/-- Appending a log row for some other strategy does not change its log. -/
theorem logsFor_append_other (db : Db) (e : ExecutionLog) (sid : Nat)
    (h : e.strategyId ≠ sid) :
    logsFor (appendLog db e) sid = logsFor db sid := by
  unfold logsFor appendLog
  rw [List.filter_append]
  simp [h]

/-- An id-preserving row update keeps the store well-formed. -/
theorem WF_map_id (db : Db) (g : Strategy → Strategy) (hid : ∀ s, (g s).id = s.id)
    (h : WF db) : WF { db with strategies := db.strategies.map g } := by
  obtain ⟨h1, h2⟩ := h
  constructor
  · rw [List.pairwise_map]
    exact h1.imp (fun hab => by rw [hid, hid]; exact hab)
  · intro s hs
    rcases List.mem_map.mp hs with ⟨a, ha, rfl⟩
    rw [hid]
    exact h2 a ha

/-- Processing one strategy neither observes nor touches any other id. -/
theorem processStrategy_other (settle : ExecuteCall → SettlementResult) (now : ℤ)
    (db : Db) (strat : Strategy) (sid : Nat) (hne : strat.id ≠ sid) :
    getStrategy (processStrategy settle now db strat) sid = getStrategy db sid ∧
    logsFor (processStrategy settle now db strat) sid = logsFor db sid := by
  unfold processStrategy
  by_cases hexp : strat.expiryTimestamp < now
  · rw [if_pos hexp]
    exact ⟨getStrategy_setExpired_other db strat.id sid hne, rfl⟩
  · rw [if_neg hexp]
    unfold executeStrategy
    by_cases helig : (shouldExecuteStrategy db strat).shouldExecute = true
    · rw [helig]
      simp only [if_true]
      cases settle (engineExecuteCall strat (shouldExecuteStrategy db strat).probability
          (shouldExecuteStrategy db strat).sentiment) with
      | ok tx =>
          exact ⟨getStrategy_setExecuted_other db strat.id sid now tx hne,
            logsFor_append_other _ _ sid hne⟩
      | fail r =>
          exact ⟨rfl, logsFor_append_other _ _ sid hne⟩
    · rw [Bool.eq_false_iff.mpr helig]
      simp only [Bool.false_eq_true, if_false]
      constructor <;> trivial

/-- Processing one strategy keeps the store well-formed. -/
theorem processStrategy_WF (settle : ExecuteCall → SettlementResult) (now : ℤ)
    (db : Db) (strat : Strategy) (h : WF db) :
    WF (processStrategy settle now db strat) := by
  unfold processStrategy
  by_cases hexp : strat.expiryTimestamp < now
  · rw [if_pos hexp]
    exact WF_map_id db _ (fun s => by by_cases hs : s.id = strat.id <;> simp [hs]) h
  · rw [if_neg hexp]
    unfold executeStrategy
    by_cases helig : (shouldExecuteStrategy db strat).shouldExecute = true
    · rw [helig]
      simp only [if_true]
      cases settle (engineExecuteCall strat (shouldExecuteStrategy db strat).probability
          (shouldExecuteStrategy db strat).sentiment) with
      | ok tx =>
          exact WF_map_id db _ (fun s => by by_cases hs : s.id = strat.id <;> simp [hs]) h
      | fail r => exact h
    · rw [Bool.eq_false_iff.mpr helig]
      simp only [Bool.false_eq_true, if_false]
      exact h

/-- The Engine's per-strategy loop over strategies of other ids leaves the
given id's row and log untouched and preserves well-formedness. -/
theorem engine_loop_untouched (settle : ExecuteCall → SettlementResult) (now : ℤ)
    (sid : Nat) :
    ∀ (l : List Strategy) (db : Db), (∀ st ∈ l, st.id ≠ sid) →
      getStrategy (l.foldl (processStrategy settle now) db) sid = getStrategy db sid ∧
      logsFor (l.foldl (processStrategy settle now) db) sid = logsFor db sid ∧
      (WF db → WF (l.foldl (processStrategy settle now) db)) := by
  intro l
  induction l with
  | nil => exact fun db _ => ⟨rfl, rfl, id⟩
  | cons st l ih =>
      intro db hne
      rw [List.foldl_cons]
      obtain ⟨g1, g2, g3⟩ := ih (processStrategy settle now db st)
        (fun b hb => hne b (List.mem_cons_of_mem _ hb))
      obtain ⟨p1, p2⟩ := processStrategy_other settle now db st sid
        (hne st (List.mem_cons_self _ _))
      exact ⟨g1.trans p1, g2.trans p2,
        fun hwf => g3 (processStrategy_WF settle now db st hwf)⟩

/-- In a store with unique ids, a row is determined by its id. -/
theorem mem_id_unique (l : List Strategy) (hp : l.Pairwise (fun a b => a.id ≠ b.id))
    (a b : Strategy) (ha : a ∈ l) (hb : b ∈ l) (hid : a.id = b.id) : a = b := by
  induction l with
  | nil => cases ha
  | cons x l ih =>
      rcases List.pairwise_cons.mp hp with ⟨hx, hp'⟩
      rcases List.mem_cons.mp ha with rfl | ha'
      · rcases List.mem_cons.mp hb with rfl | hb'
        · rfl
        · exact absurd hid (hx b hb')
      · rcases List.mem_cons.mp hb with rfl | hb'
        · exact absurd hid.symm (hx a ha')
        · exact ih hp' ha' hb'

/-- One Discovery iteration keeps the store well-formed. -/
theorem discoverStep_WF (now : ℤ) (acc : Db × List RegisterCall) (mid : String)
    (h : WF acc.1) : WF (discoverStep now acc mid).1 := by
  rcases discoverStep_cases now acc mid with ⟨he, -⟩ | ⟨tag, -, -, -, he⟩
  · rw [he]
    exact h
  · rw [he]
    obtain ⟨h1, h2⟩ := h
    constructor
    · rw [List.pairwise_append]
      refine ⟨h1, List.pairwise_singleton _ _, ?_⟩
      intro a ha b hb
      rw [List.mem_singleton] at hb
      subst hb
      exact Nat.ne_of_lt (h2 a ha)
    · intro s hs
      rcases List.mem_append.mp hs with h' | h'
      · exact Nat.lt_succ_of_lt (h2 s h')
      · rw [List.mem_singleton] at h'
        subst h'
        exact Nat.lt_succ_self _

/-- The Discovery loop keeps the store well-formed. -/
theorem discover_fold_WF (now : ℤ) :
    ∀ (mids : List String) (acc : Db × List RegisterCall), WF acc.1 →
      WF ((mids.foldl (discoverStep now) acc).1) := by
  intro mids
  induction mids with
  | nil => exact fun acc h => h
  | cons mid mids ih =>
      intro acc h
      rw [List.foldl_cons]
      exact ih (discoverStep now acc mid) (discoverStep_WF now acc mid h)

/-- One Engine run leaves a non-ACTIVE strategy's row and log untouched and
keeps the store well-formed. -/
theorem engineRun_preserves_terminal (settle : ExecuteCall → SettlementResult)
    (now : ℤ) (db : Db) (sid : Nat) (s : Strategy)
    (hwf : WF db) (hs : getStrategy db sid = some s) (hterm : s.status ≠ .ACTIVE) :
    getStrategy (runStrategyExecutionEngine settle now db) sid = some s ∧
    logsFor (runStrategyExecutionEngine settle now db) sid = logsFor db sid ∧
    WF (runStrategyExecutionEngine settle now db) := by
  obtain ⟨⟨hm, hsn, hlg⟩, hnext, new, hstr, hnew⟩ :=
    discover_fold_shape now (recentMarketIds db now) (db, [])
  have hwf1 : WF (discoverAndCreateStrategies db now).1 :=
    discover_fold_WF now (recentMarketIds db now) (db, []) hwf
  have hs1 : getStrategy (discoverAndCreateStrategies db now).1 sid = some s := by
    unfold getStrategy at hs ⊢
    rw [show (discoverAndCreateStrategies db now).1.strategies = db.strategies ++ new
      from hstr, List.find?_append, hs]
    rfl
  have hsid_mem : s ∈ db.strategies := List.mem_of_find?_eq_some hs
  have hsid_eq : s.id = sid := by
    have := List.find?_some hs
    simpa using this
  have hsid_lt : s.id < db.nextId := hwf.2 s hsid_mem
  have hactive : ∀ st ∈ (discoverAndCreateStrategies db now).1.strategies.filter
      (fun s => s.status = .ACTIVE), st.id ≠ sid := by
    intro st hst hid_eq
    have hmem : st ∈ (discoverAndCreateStrategies db now).1.strategies :=
      List.mem_of_mem_filter hst
    have hstACT : st.status = .ACTIVE := by
      have := List.of_mem_filter hst
      simpa using this
    rw [show (discoverAndCreateStrategies db now).1.strategies = db.strategies ++ new
      from hstr] at hmem
    rcases List.mem_append.mp hmem with h' | h'
    · have : st = s := mem_id_unique db.strategies hwf.1 st s h' hsid_mem
        (by rw [hid_eq, hsid_eq])
      rw [this] at hstACT
      exact hterm hstACT
    · rcases hnew st h' with ⟨hge, -⟩
      rw [hid_eq, ← hsid_eq] at hge
      exact absurd hsid_lt (not_lt_of_le hge)
  obtain ⟨g1, g2, g3⟩ := engine_loop_untouched settle now sid
    ((discoverAndCreateStrategies db now).1.strategies.filter (fun s => s.status = .ACTIVE))
    (discoverAndCreateStrategies db now).1 hactive
  have hlg1 : logsFor (discoverAndCreateStrategies db now).1 sid = logsFor db sid := by
    unfold logsFor
    rw [show (discoverAndCreateStrategies db now).1.logs = db.logs from hlg]
  exact ⟨g1.trans hs1, g2.trans hlg1, g3 hwf1⟩

/-- A manual execute request leaves a non-ACTIVE strategy's row and log
untouched and keeps the store well-formed. -/
theorem manualExecute_preserves_terminal (settle : ExecuteCall → SettlementResult)
    (now : ℤ) (db : Db) (tid sid : Nat) (s : Strategy)
    (hwf : WF db) (hs : getStrategy db sid = some s) (hterm : s.status ≠ .ACTIVE) :
    getStrategy (manualExecuteStrategy settle now db tid) sid = some s ∧
    logsFor (manualExecuteStrategy settle now db tid) sid = logsFor db sid ∧
    WF (manualExecuteStrategy settle now db tid) := by
  unfold manualExecuteStrategy
  split
  · exact ⟨hs, rfl, hwf⟩
  next strategy hg =>
    split
    next hact =>
      have hne : strategy.id ≠ sid := by
        intro he
        have hmem1 : strategy ∈ db.strategies := List.mem_of_find?_eq_some hg
        have hmem2 : s ∈ db.strategies := List.mem_of_find?_eq_some hs
        have hsid_eq : s.id = sid := by
          have := List.find?_some hs
          simpa using this
        have heqs : strategy = s := mem_id_unique db.strategies hwf.1 strategy s hmem1 hmem2
          (by rw [he, hsid_eq])
        rw [heqs] at hact
        exact hterm hact
      split
      next m sn hmk hsnp =>
        cases settle (engineExecuteCall strategy m.probability sn.score) with
        | ok tx =>
            refine ⟨?_, ?_, ?_⟩
            · exact (getStrategy_setExecuted_other db strategy.id sid now tx hne).trans hs
            · exact logsFor_append_other _ _ sid hne
            · exact WF_map_id db _
                (fun s => by by_cases hsi : s.id = strategy.id <;> simp [hsi]) hwf
        | fail r =>
            exact ⟨hs, logsFor_append_other _ _ sid hne, hwf⟩
      next =>
        exact ⟨hs, rfl, hwf⟩
    next hact =>
      exact ⟨hs, rfl, hwf⟩

/-- One backend operation leaves a non-ACTIVE strategy's row and log
untouched and keeps the store well-formed. -/
theorem applyOp_preserves_terminal (db : Db) (op : Op) (sid : Nat) (s : Strategy)
    (hwf : WF db) (hs : getStrategy db sid = some s) (hterm : s.status ≠ .ACTIVE) :
    getStrategy (applyOp db op) sid = some s ∧
    logsFor (applyOp db op) sid = logsFor db sid ∧ WF (applyOp db op) := by
  cases op with
  | engineRun settle now =>
      exact engineRun_preserves_terminal settle now db sid s hwf hs hterm
  | manualExecute settle now tid =>
      exact manualExecute_preserves_terminal settle now db tid sid s hwf hs hterm

/-- C2: once a strategy is EXECUTED or EXPIRED, no sequence of Engine runs
and manual execute requests changes its row (in particular its status) or
appends any further log entry for it. -/
theorem strategy_status_monotonic (db : Db) (sid : Nat) (s : Strategy) (ops : List Op)
    (hwf : WF db) (hs : getStrategy db sid = some s)
    (hterm : s.status = .EXECUTED ∨ s.status = .EXPIRED) :
    getStrategy (applyOps db ops) sid = some s ∧
    logsFor (applyOps db ops) sid = logsFor db sid := by
  have hterm' : s.status ≠ .ACTIVE := by
    rcases hterm with h | h <;> rw [h] <;> exact fun hc => StrategyStatus.noConfusion hc
  clear hterm
  suffices h : ∀ (ops : List Op) (db : Db), WF db → getStrategy db sid = some s →
      getStrategy (applyOps db ops) sid = some s ∧
      logsFor (applyOps db ops) sid = logsFor db sid by
    exact h ops db hwf hs
  intro ops
  induction ops with
  | nil => exact fun db _ hsx => ⟨hsx, rfl⟩
  | cons op ops ih =>
      intro db hwfx hsx
      obtain ⟨p1, p2, p3⟩ := applyOp_preserves_terminal db op sid s hwfx hsx hterm'
      obtain ⟨q1, q2⟩ := ih (applyOp db op) p3 p1
      exact ⟨q1, q2.trans p2⟩

/-- Closed instance of the C2 theorem: an Engine run over a store whose only
strategy is EXECUTED changes neither its row nor its log. -/
theorem strategy_status_monotonic_witness :
    getStrategy (applyOps executedDb
        [Op.engineRun (fun _ => SettlementResult.fail ("x")) 0]) 1 =
      some executedStrategy ∧
    logsFor (applyOps executedDb
        [Op.engineRun (fun _ => SettlementResult.fail ("x")) 0]) 1 =
      logsFor executedDb 1 :=
  strategy_status_monotonic executedDb 1 executedStrategy
    [Op.engineRun (fun _ => SettlementResult.fail ("x")) 0]
    ⟨List.pairwise_singleton _ _, by
      intro s hs
      have hx : s ∈ [executedStrategy] := hs
      rw [List.mem_singleton] at hx
      subst hx
      exact Nat.lt_succ_self 1⟩
    rfl (Or.inl rfl)

/-- A table lookup survives appending entries. -/
theorem tableGet_mono (t l : List (String × MoveStrategy)) (k : String) (v : MoveStrategy)
    (h : tableGet t k = some v) : tableGet (t ++ l) k = some v := by
  unfold tableGet at *
  rcases Option.map_eq_some'.mp h with ⟨e, he, rfl⟩
  rw [List.find?_append, he]
  rfl

/-- Overwriting a present key makes the lookup return the new value. -/
theorem tableGet_tableSet_self (t : List (String × MoveStrategy)) (k : String)
    (v w : MoveStrategy) (h : tableGet t k = some w) :
    tableGet (tableSet t k v) k = some v := by
  induction t with
  | nil => exact Option.noConfusion h
  | cons e t ih =>
      unfold tableGet tableSet at *
      rw [List.map_cons]
      by_cases he : e.1 = k
      · rw [if_pos he]
        rw [List.find?_cons_of_pos _ (by exact decide_eq_true (show (k, v).1 = k from rfl))]
        rfl
      · rw [if_neg he, List.find?_cons_of_neg _ (by simpa using he)]
        rw [List.find?_cons_of_neg _ (by simpa using he)] at h
        exact ih h

/-- Overwriting one key leaves every other lookup unchanged. -/
theorem tableGet_tableSet_other (t : List (String × MoveStrategy)) (k k' : String)
    (v : MoveStrategy) (h : k' ≠ k) :
    tableGet (tableSet t k v) k' = tableGet t k' := by
  induction t with
  | nil => rfl
  | cons e t ih =>
      unfold tableGet tableSet at *
      rw [List.map_cons]
      by_cases he : e.1 = k
      · have h1 : ¬(e.1 = k') := by
          rw [he]
          exact fun hk => h hk.symm
        rw [if_pos he, List.find?_cons_of_neg _ (by simpa using fun hk => h hk.symm),
          List.find?_cons_of_neg _ (by simpa using h1)]
        exact ih
      · rw [if_neg he]
        by_cases h1 : e.1 = k'
        · rw [List.find?_cons_of_pos _ (by exact decide_eq_true h1),
            List.find?_cons_of_pos _ (by exact decide_eq_true h1)]
        · rw [List.find?_cons_of_neg _ (by simpa using h1),
            List.find?_cons_of_neg _ (by simpa using h1)]
          exact ih

/-- A successful on-chain execution sets the strategy's executed flag. -/
theorem execute_strategy_ok_flag (st : MoveState) (sid mid : String) (p s : ℕ)
    (st' : MoveState)
    (h : execute_strategy st sid mid p s = .ok st') :
    strategyExecutedFlag st' sid = some true := by
  unfold execute_strategy at h
  split at h
  · exact Except.noConfusion h
  next store =>
    split at h
    · exact Except.noConfusion h
    next strat hg =>
      split at h
      · exact Except.noConfusion h
      split at h
      · exact Except.noConfusion h
      split at h
      · exact Except.noConfusion h
      cases h
      show Option.map (fun s => s.executed)
        (tableGet (tableSet store.strategies sid ({ strat with executed := true })) sid) =
          some true
      rw [tableGet_tableSet_self store.strategies sid _ strat hg]
      rfl

/-- Executing an already-executed strategy aborts with
E_STRATEGY_ALREADY_EXECUTED. -/
theorem execute_strategy_already (st : MoveState) (sid mid : String) (p s : ℕ)
    (h : strategyExecutedFlag st sid = some true) :
    execute_strategy st sid mid p s = .error E_STRATEGY_ALREADY_EXECUTED := by
  unfold execute_strategy
  split
  · exact Option.noConfusion h
  next store =>
    have h' : Option.map (fun s => s.executed) (tableGet store.strategies sid) = some true := h
    rcases Option.map_eq_some'.mp h' with ⟨strat, hg, hve⟩
    have hex : strat.executed = true := hve
    split
    next hnone =>
      rw [hg] at hnone
      exact Option.noConfusion hnone
    next strat2 hg2 =>
      rw [hg] at hg2
      injection hg2 with he2
      subst he2
      rw [if_pos hex]

/-- Every transaction preserves a set executed flag. -/
theorem moveStep_preserves_executed (st : MoveState) (op : MoveOp) (sid : String)
    (h : strategyExecutedFlag st sid = some true) :
    strategyExecutedFlag (moveStep st op) sid = some true := by
  cases op with
  | reg a b c d e f g hh =>
      show strategyExecutedFlag (match register_strategy st a b c d e f g hh with
        | .ok st2 => st2
        | .error _ => st) sid = some true
      split
      next st2 hr =>
        cases st with
        | none => exact Option.noConfusion h
        | some store =>
            unfold register_strategy at hr
            split at hr
            · exact Except.noConfusion hr
            cases hr
            have h' : Option.map (fun s => s.executed) (tableGet store.strategies sid) =
                some true := h
            rcases Option.map_eq_some'.mp h' with ⟨v, hv, hve⟩
            have hmono : tableGet ((storeOf (some store)).strategies ++
                [(a, { id := a, market_id := b, sentiment_tag := c, min_prediction_prob := d,
                       min_sentiment_score := e, notional_amount := f, expiry_timestamp := hh,
                       executed := false })]) sid = some v :=
              tableGet_mono store.strategies _ sid v hv
            show Option.map (fun s => s.executed) (tableGet _ sid) = some true
            rw [hmono]
            simpa using hve
      next code hr => exact h
  | exec a b p q =>
      show strategyExecutedFlag (match execute_strategy st a b p q with
        | .ok st2 => st2
        | .error _ => st) sid = some true
      split
      next st2 hr =>
        by_cases hak : a = sid
        · subst hak
          rw [execute_strategy_already st a b p q h] at hr
          exact Except.noConfusion hr
        · unfold execute_strategy at hr
          split at hr
          · exact Except.noConfusion hr
          next store =>
            split at hr
            · exact Except.noConfusion hr
            next strat hg =>
              split at hr
              · exact Except.noConfusion hr
              split at hr
              · exact Except.noConfusion hr
              split at hr
              · exact Except.noConfusion hr
              cases hr
              have h' : Option.map (fun s => s.executed) (tableGet store.strategies sid) =
                  some true := h
              show Option.map (fun s => s.executed)
                (tableGet (tableSet store.strategies a ({ strat with executed := true })) sid) =
                  some true
              rw [tableGet_tableSet_other store.strategies a sid _ (fun hk => hak hk.symm)]
              exact h'
      next code hr => exact h

/-- Every transaction sequence preserves a set executed flag. -/
theorem moveSteps_preserves_executed :
    ∀ (ops : List MoveOp) (st : MoveState) (sid : String),
      strategyExecutedFlag st sid = some true →
      strategyExecutedFlag (moveSteps st ops) sid = some true := by
  intro ops
  induction ops with
  | nil => exact fun st sid h => h
  | cons op ops ih =>
      intro st sid h
      exact ih (moveStep st op) sid (moveStep_preserves_executed st op sid h)

/-- C10: the settlement contract executes each strategy at most once: a
successful `execute_strategy` sets the executed flag, and after any further
transaction sequence a repeated `execute_strategy` for the same id aborts
with E_STRATEGY_ALREADY_EXECUTED. -/
theorem onchain_execute_at_most_once (st : MoveState) (strategy_id market_id : String)
    (prob_bps sentiment_bps : ℕ) (st' : MoveState)
    (h : execute_strategy st strategy_id market_id prob_bps sentiment_bps = .ok st') :
    strategyExecutedFlag st' strategy_id = some true ∧
    ∀ (ops : List MoveOp) (market_id' : String) (p' s' : ℕ),
      execute_strategy (moveSteps st' ops) strategy_id market_id' p' s' =
        .error E_STRATEGY_ALREADY_EXECUTED := by
  have hflag := execute_strategy_ok_flag st strategy_id market_id prob_bps sentiment_bps st' h
  refine ⟨hflag, ?_⟩
  intro ops market_id' p' s'
  exact execute_strategy_already _ _ _ _ _
    (moveSteps_preserves_executed ops st' strategy_id hflag)

/-- Closed instance of the C10 theorem: register, execute, then observe the
flag and the abort of a duplicate execution. -/
theorem onchain_execute_at_most_once_witness :
    strategyExecutedFlag moveSt1 ("s1") = some true ∧
    execute_strategy (moveSteps moveSt1 []) ("s1") ("m") 5 5 =
      .error E_STRATEGY_ALREADY_EXECUTED :=
  ⟨(onchain_execute_at_most_once moveSt0 ("s1") ("m") 5 5 moveSt1 rfl).1,
    (onchain_execute_at_most_once moveSt0 ("s1") ("m") 5 5 moveSt1 rfl).2 [] ("m") 5 5⟩

end SentimentFlow
